import Mathlib

/-!
Verification of the rule-based insertion noise model
(`cirq/devices/insertion_noise_model.py`).

The file embeds `InsertionNoiseModel` and its `noisy_moment`, `_json_dict_`
and `_from_json_dict_` methods as executable Lean functions, states the
specified properties of the matching phase, the moment-packing phase and the
splicing phase, and proves or refutes them.

Gate types `G` and qubits `Q` are abstract types with decidable equality;
the gate subtype registry is an explicit parameter `sub : G → G → Bool`.
Collaborator code that is not part of the core (the operation and identifier
value types, the designated physical-gate marker, and the circuit
constructor's moment packing) is modelled from the spec, as indicated on
each such definition.
-/

namespace InsertionNoise

/-- Modelled from the spec: `cirq.Operation` (outside this core) is an opaque
value with a qubit set (its support), a gate type, and a set of string
markers (tags). -/
structure Operation (G Q : Type) where
  gate : G
  qubits : Finset Q
  tags : List String
deriving DecidableEq

/-- Modelled from the spec: `cirq.devices.noise_utils.OpIdentifier` (outside
this core) carries a gate-type selector and an optional fixed qubit set. -/
structure OpIdentifier (G Q : Type) where
  gate_type : G
  qubits : Option (Finset Q)
deriving DecidableEq

/-- Modelled from the spec: `cirq.Moment` (outside this core) is a time-step
holding the operations considered simultaneous, iterated in a fixed order. -/
structure Moment (G Q : Type) where
  ops : List (Operation G Q)
deriving DecidableEq

/-- Modelled from the spec: `cirq.devices.noise_utils.PHYSICAL_GATE_TAG`
(outside this core), the designated marker gating whether noise rules apply
to an operation. -/
def PHYSICAL_GATE_TAG : String := "physical_gate"

variable {G Q : Type} [DecidableEq G] [DecidableEq Q]

/-- Gate-type subtyping as used by the matcher: equal to, or a recognized
subtype of (per the registry `sub`). -/
def subtypeOf (sub : G → G → Bool) (x y : G) : Bool :=
  decide (x = y) || sub x y

/-- Modelled from the spec: the "contains" test of
`OpIdentifier.__contains__` (outside this core): an operation matches a
pattern if its gate type equals or is a subtype of the pattern's selector,
and, when the pattern specifies qubits, the operation's qubit set equals the
pattern's exactly. -/
def opIdContains (sub : G → G → Bool) (oid : OpIdentifier G Q) (op : Operation G Q) : Bool :=
  subtypeOf sub op.gate oid.gate_type &&
    (match oid.qubits with
     | none => true
     | some qs => decide (op.qubits = qs))

/-- Modelled from the spec: `OpIdentifier.is_proper_subtype_of` (outside this
core): pattern A is strictly more specific than pattern B if A's gate-type
selector is a subtype of (and not equal to) B's, or if the two gate-type
selectors are equal or incomparable but A specifies qubits while B does
not. -/
def is_proper_subtype_of (sub : G → G → Bool) (a b : OpIdentifier G Q) : Bool :=
  (subtypeOf sub a.gate_type b.gate_type && !decide (a.gate_type = b.gate_type)) ||
    ((decide (a.gate_type = b.gate_type) ||
        (!subtypeOf sub a.gate_type b.gate_type && !subtypeOf sub b.gate_type a.gate_type)) &&
      a.qubits.isSome && b.qubits.isNone)

/-- The configuration dataclass `InsertionNoiseModel`: an ordered rule table
(a Python dict, embedded as an association list with unique keys), the
`prepend` flag and the `require_physical_tag` flag. -/
structure InsertionNoiseModel (G Q : Type) where
  ops_added : List (OpIdentifier G Q × Operation G Q)
  prepend : Bool := false
  require_physical_tag : Bool := true
deriving DecidableEq

/-- The candidate filter of `noisy_moment`: keep the operations of the
moment that carry the physical-gate marker, unless `require_physical_tag`
is off. -/
def candidate_ops (model : InsertionNoiseModel G Q) (moment : Moment G Q) :
    List (Operation G Q) :=
  moment.ops.filter (fun op =>
    !model.require_physical_tag || decide (PHYSICAL_GATE_TAG ∈ op.tags))

/-- The candidate identifiers for one operation: the rule-table keys whose
"contains" test succeeds against it, in declaration order. -/
def candidate_ids (sub : G → G → Bool) (table : List (OpIdentifier G Q × Operation G Q))
    (op : Operation G Q) : List (OpIdentifier G Q) :=
  (table.map Prod.fst).filter (fun oid => opIdContains sub oid op)

/-- One step of the inner matching loop of `noisy_moment`:
`if match_id is None or op_id.is_proper_subtype_of(match_id): match_id = op_id`. -/
def matchStep (sub : G → G → Bool) (match_id : Option (OpIdentifier G Q))
    (op_id : OpIdentifier G Q) : Option (OpIdentifier G Q) :=
  match match_id with
  | none => some op_id
  | some m => if is_proper_subtype_of sub op_id m then some op_id else some m

/-- The full matching loop of `noisy_moment` for one candidate operation:
fold the matching-loop step over the candidate identifiers, starting from
`None`. -/
def selectMatch (sub : G → G → Bool) (table : List (OpIdentifier G Q × Operation G Q))
    (op : Operation G Q) : Option (OpIdentifier G Q) :=
  (candidate_ids sub table op).foldl (matchStep sub) none

/-- Python dict indexing `self.ops_added[match_id]`, embedded as first-match
association-list lookup (keys of a Python dict are unique). -/
def lookupOp (table : List (OpIdentifier G Q × Operation G Q)) (k : OpIdentifier G Q) :
    Option (Operation G Q) :=
  (table.find? (fun p => decide (p.1 = k))).map Prod.snd

/-- The noise operations collected by `noisy_moment`: for each candidate
operation whose matching loop ends with a non-`None` `match_id`, the bound
replacement operation `ops_added[match_id]`, in candidate order. -/
def selectNoiseOps (sub : G → G → Bool) (table : List (OpIdentifier G Q × Operation G Q))
    (cands : List (Operation G Q)) : List (Operation G Q) :=
  cands.filterMap (fun op => (selectMatch sub table op).bind (lookupOp table))

/-- The noise-collection phase with the fallible dict lookup made explicit:
`none` models a Python `KeyError` escaping `ops_added[match_id]`. -/
def collectNoiseOps (sub : G → G → Bool) (table : List (OpIdentifier G Q × Operation G Q)) :
    List (Operation G Q) → Option (List (Operation G Q))
  | [] => some []
  | op :: rest =>
    match selectMatch sub table op with
    | none => collectNoiseOps sub table rest
    | some mid =>
      match lookupOp table mid with
      | none => none
      | some nop => (collectNoiseOps sub table rest).map (fun l => nop :: l)

/-- Two operations share a qubit when their supports are not disjoint. -/
def sharesQubit (a b : Operation G Q) : Bool :=
  !decide (a.qubits ∩ b.qubits = ∅)

/-- An operation conflicts with a step when it shares a qubit with one of
the step's operations. -/
def conflictsWith (op : Operation G Q) (step : List (Operation G Q)) : Bool :=
  step.any (fun o => sharesQubit op o)

/-- Modelled from the spec: one placement step of the moment packing
performed by the external circuit constructor (`circuits.Circuit` on
`noise_ops`, outside this core): place the operation into the earliest-index
existing step whose current contents do not share a qubit with it, opening a
new step at the end when no existing step can accept it. -/
def placeOp (op : Operation G Q) : List (List (Operation G Q)) → List (List (Operation G Q))
  | [] => [[op]]
  | s :: rest => if conflictsWith op s then s :: placeOp op rest else (s ++ [op]) :: rest

/-- Modelled from the spec: the greedy stable moment packing of
`circuits.Circuit(noise_ops).moments` (outside this core): process the noise
operations in the order given, placing each with `placeOp`. -/
def packOps (ops : List (Operation G Q)) : List (List (Operation G Q)) :=
  ops.foldl (fun steps op => placeOp op steps) []

/-- The assembling phase of `noisy_moment`: if no noise operation was
collected return the original moment alone, otherwise pack the noise
operations into steps and splice them before or after the original moment
according to `prepend`. -/
def emit (prepend : Bool) (moment : Moment G Q) (noise_ops : List (Operation G Q)) :
    List (Moment G Q) :=
  if noise_ops.isEmpty then [moment]
  else
    let noise_steps := (packOps noise_ops).map Moment.mk
    if prepend then noise_steps ++ [moment] else moment :: noise_steps

/-- `InsertionNoiseModel.noisy_moment`: filter candidates, run the matching
loop, collect the bound replacement operations, pack them into steps and
splice. The `system_qubits` argument is accepted and never read, as in the
source. -/
def noisy_moment (sub : G → G → Bool) (model : InsertionNoiseModel G Q)
    (moment : Moment G Q) (system_qubits : List Q) : List (Moment G Q) :=
  emit model.prepend moment
    (selectNoiseOps sub model.ops_added (candidate_ops model moment))

/-- `noisy_moment` with the fallible dict lookup made explicit: `none`
models a Python `KeyError` escaping the matching phase. -/
def noisy_momentE (sub : G → G → Bool) (model : InsertionNoiseModel G Q)
    (moment : Moment G Q) (system_qubits : List Q) : Option (List (Moment G Q)) :=
  (collectNoiseOps sub model.ops_added (candidate_ops model moment)).map
    (emit model.prepend moment)

/-- `InsertionNoiseModel._json_dict_` exports the rule table as the ordered
list of its pairs, together with the two flags. -/
structure JsonDict (G Q : Type) where
  ops_added : List (OpIdentifier G Q × Operation G Q)
  prepend : Bool
  require_physical_tag : Bool
deriving DecidableEq

/-- `InsertionNoiseModel._json_dict_`: `list(self.ops_added.items())` is the
association list itself, in declaration order. -/
def json_dict (model : InsertionNoiseModel G Q) : JsonDict G Q :=
  ⟨model.ops_added, model.prepend, model.require_physical_tag⟩

/-- One insertion into a Python dict under construction: overwrite in place
when the key is present, append otherwise. -/
def dictInsert {K V : Type} [DecidableEq K] (l : List (K × V)) (kv : K × V) :
    List (K × V) :=
  if l.any (fun p => decide (p.1 = kv.1)) then
    l.map (fun p => if p.1 = kv.1 then (p.1, kv.2) else p)
  else l ++ [kv]

/-- Python `dict(pairs)`: fold the pairs into an initially empty dict,
keeping first-insertion order and letting the last value for a key win. -/
def pyDict {K V : Type} [DecidableEq K] (l : List (K × V)) : List (K × V) :=
  l.foldl dictInsert []

/-- `InsertionNoiseModel._from_json_dict_`: rebuild the model with
`dict(ops_added)` and the two flags. -/
def from_json_dict (j : JsonDict G Q) : InsertionNoiseModel G Q :=
  ⟨pyDict j.ops_added, j.prepend, j.require_physical_tag⟩

/-- The time-step invariant: the qubit supports of the step's operations are
pairwise disjoint. -/
def stepOk (s : List (Operation G Q)) : Prop :=
  s.Pairwise (fun a b => sharesQubit a b = false)

/-- Boolean form of the time-step invariant. -/
def stepOkB : List (Operation G Q) → Bool
  | [] => true
  | a :: rest => rest.all (fun b => !sharesQubit a b) && stepOkB rest

instance (s : List (Operation G Q)) : Decidable (stepOk s) :=
  inferInstanceAs (Decidable (s.Pairwise fun a b => sharesQubit a b = false))

/-! ## Concrete instances over natural-number gate labels and qubits -/

/-- The empty gate-subtype registry: no label is a strict subtype of another. -/
def noSub : Nat → Nat → Bool := fun _ _ => false

/-- A total-order gate-subtype registry on natural-number gate labels. -/
def leSub : Nat → Nat → Bool := fun a b => decide (a ≤ b)

/-- Crown-pattern noise operations: the two groups are internally disjoint,
but each operation of one group conflicts with all but one of the other. -/
def cu1 : Operation Nat Nat := ⟨101, {12, 13}, []⟩

def cv1 : Operation Nat Nat := ⟨102, {21, 31}, []⟩

def cu2 : Operation Nat Nat := ⟨103, {21, 23}, []⟩

def cv2 : Operation Nat Nat := ⟨104, {12, 32}, []⟩

def cu3 : Operation Nat Nat := ⟨105, {31, 32}, []⟩

def cv3 : Operation Nat Nat := ⟨106, {13, 23}, []⟩

/-- A rule table triggering the six crown noise operations in order. -/
def crownModel : InsertionNoiseModel Nat Nat :=
  ⟨[(⟨1, none⟩, cu1), (⟨2, none⟩, cv1), (⟨3, none⟩, cu2),
    (⟨4, none⟩, cv2), (⟨5, none⟩, cu3), (⟨6, none⟩, cv3)], false, false⟩

/-- A moment with six operations, one per crown rule. -/
def crownMoment : Moment Nat Nat :=
  ⟨[⟨1, {90}, []⟩, ⟨2, {91}, []⟩, ⟨3, {92}, []⟩,
    ⟨4, {93}, []⟩, ⟨5, {94}, []⟩, ⟨6, {95}, []⟩]⟩

/-- Pattern for gate label 1 with no qubit constraint. -/
def c2A : OpIdentifier Nat Nat := ⟨1, none⟩

/-- Pattern for gate label 2 with no qubit constraint. -/
def c2B : OpIdentifier Nat Nat := ⟨2, none⟩

def c2x : Operation Nat Nat := ⟨7, {3}, []⟩

def c2y : Operation Nat Nat := ⟨8, {4}, []⟩

def c2op : Operation Nat Nat := ⟨1, {0}, []⟩

/-- A registry on gate labels 0..3 in which 0 is below 1, 2 and 3, and 1 is
below 2; it is transitive and antisymmetric on these labels. -/
def c2sub : Nat → Nat → Bool := fun a b =>
  decide ((a = 0 ∧ (b = 1 ∨ b = 2 ∨ b = 3)) ∨ (a = 1 ∧ b = 2))

/-- A pattern whose gate label 3 is incomparable to labels 1 and 2. -/
def c2M : OpIdentifier Nat Nat := ⟨3, none⟩

def c2cA : OpIdentifier Nat Nat := ⟨1, none⟩

/-- A qubit-bound pattern for gate label 2. -/
def c2cB : OpIdentifier Nat Nat := ⟨2, some {0}⟩

def c2cop : Operation Nat Nat := ⟨0, {0}, []⟩

def c2zM : Operation Nat Nat := ⟨11, {9}, []⟩

def c2zA : Operation Nat Nat := ⟨12, {9}, []⟩

def c2zB : Operation Nat Nat := ⟨13, {9}, []⟩

/-- Rule table declaring the incomparable pattern first, then the subtype
pair. -/
def c2cexModel : InsertionNoiseModel Nat Nat :=
  ⟨[(c2M, c2zM), (c2cA, c2zA), (c2cB, c2zB)], false, false⟩

/-- A registry in which gate label 0 is below the incomparable labels 1
and 2. -/
def c3sub : Nat → Nat → Bool := fun a b => decide (a = 0 ∧ (b = 1 ∨ b = 2))

def c3A : OpIdentifier Nat Nat := ⟨1, none⟩

def c3B : OpIdentifier Nat Nat := ⟨2, none⟩

def c3x : Operation Nat Nat := ⟨7, {3}, []⟩

def c3y : Operation Nat Nat := ⟨8, {4}, []⟩

def c3op : Operation Nat Nat := ⟨0, {0}, []⟩

def c3table : List (OpIdentifier Nat Nat × Operation Nat Nat) :=
  [(c3A, c3x), (c3B, c3y)]

/-- A replacement operation always landing on qubit 5. -/
def c4z : Operation Nat Nat := ⟨200, {5}, []⟩

/-- One qubit-free rule whose replacement always hits qubit 5. -/
def c4Model : InsertionNoiseModel Nat Nat := ⟨[(⟨0, none⟩, c4z)], false, false⟩

/-- Three disjoint candidate operations, all matching the single rule. -/
def c4Moment : Moment Nat Nat := ⟨[⟨0, {0}, []⟩, ⟨0, {1}, []⟩, ⟨0, {2}, []⟩]⟩

def c5z : Operation Nat Nat := ⟨201, {6}, []⟩

/-- A single-rule model with `prepend` set. -/
def c5Model : InsertionNoiseModel Nat Nat := ⟨[(⟨0, none⟩, c5z)], true, false⟩

def c5Moment : Moment Nat Nat := ⟨[⟨0, {0}, []⟩]⟩

/-- A model with an empty rule table. -/
def c6Model : InsertionNoiseModel Nat Nat := ⟨[], false, true⟩

def c6Moment : Moment Nat Nat := ⟨[⟨0, {0}, []⟩]⟩

def c7z : Operation Nat Nat := ⟨202, {7}, []⟩

def c7Model : InsertionNoiseModel Nat Nat := ⟨[(⟨0, none⟩, c7z)], false, false⟩

def c7Moment : Moment Nat Nat := ⟨[⟨0, {0}, []⟩]⟩

/-- A two-rule model with both flags set, for the round-trip witness. -/
def c8Model : InsertionNoiseModel Nat Nat :=
  ⟨[(⟨1, none⟩, ⟨7, {3}, []⟩), (⟨2, some {0}⟩, ⟨8, {4}, []⟩)], true, true⟩

def c8Moment : Moment Nat Nat := ⟨[⟨1, {0}, [PHYSICAL_GATE_TAG]⟩]⟩

/-! ## Helper lemmas about the packing phase -/

theorem sharesQubit_symm (a b : Operation G Q) : sharesQubit a b = sharesQubit b a := by
  simp [sharesQubit, Finset.inter_comm]

theorem placeOp_char (op : Operation G Q) (steps : List (List (Operation G Q))) :
    (∃ pre s post, steps = pre ++ s :: post ∧ (∀ t ∈ pre, conflictsWith op t = true) ∧
      conflictsWith op s = false ∧ placeOp op steps = pre ++ (s ++ [op]) :: post) ∨
    ((∀ t ∈ steps, conflictsWith op t = true) ∧ placeOp op steps = steps ++ [[op]]) := by
  induction steps with
  | nil => exact Or.inr ⟨by simp, rfl⟩
  | cons s rest ih =>
    by_cases h : conflictsWith op s = true
    · rcases ih with ⟨pre, s1, post, heq, hpre, hs1, hres⟩ | ⟨hall, hres⟩
      · left
        refine ⟨s :: pre, s1, post, by simp [heq], ?_, hs1, ?_⟩
        · intro t ht
          rcases List.mem_cons.mp ht with rfl | ht2
          · exact h
          · exact hpre t ht2
        · simp [placeOp, h, hres]
      · right
        refine ⟨?_, ?_⟩
        · intro t ht
          rcases List.mem_cons.mp ht with rfl | ht2
          · exact h
          · exact hall t ht2
        · simp [placeOp, h, hres]
    · left
      refine ⟨[], s, rest, by simp, by simp, by simpa using h, ?_⟩
      simp [placeOp, h]

theorem packOps_append (ops : List (Operation G Q)) (op : Operation G Q) :
    packOps (ops ++ [op]) = placeOp op (packOps ops) := by
  simp [packOps, List.foldl_append]

theorem stepOk_singleton (op : Operation G Q) : stepOk [op] :=
  List.pairwise_singleton _ _

theorem placeOp_stepOk (op : Operation G Q) (steps : List (List (Operation G Q)))
    (h : ∀ s ∈ steps, stepOk s) : ∀ s ∈ placeOp op steps, stepOk s := by
  induction steps with
  | nil =>
    intro s hs
    simp [placeOp] at hs
    subst hs
    exact stepOk_singleton op
  | cons t rest ih =>
    intro s hs
    by_cases hc : conflictsWith op t = true
    · simp [placeOp, hc] at hs
      rcases hs with rfl | hs2
      · exact h s (by simp)
      · exact ih (fun u hu => h u (by simp [hu])) s hs2
    · simp [placeOp, hc] at hs
      rcases hs with rfl | hs2
      · have ht : stepOk t := h t (by simp)
        have hna : ∀ a ∈ t, sharesQubit a op = false := by
          intro a ha
          have := (List.any_eq_false).mp (by simpa [conflictsWith] using hc) a ha
          rw [sharesQubit_symm]
          simpa using this
        unfold stepOk
        rw [List.pairwise_append]
        refine ⟨ht, List.pairwise_singleton _ _, ?_⟩
        intro a ha b hb
        rcases List.mem_singleton.mp hb with rfl
        exact hna a ha
      · exact h s (by simp [hs2])

theorem packOps_stepOk (ops : List (Operation G Q)) :
    ∀ s ∈ packOps ops, stepOk s := by
  suffices h : ∀ (l : List (Operation G Q)) (steps : List (List (Operation G Q))),
      (∀ s ∈ steps, stepOk s) →
      ∀ s ∈ l.foldl (fun st op => placeOp op st) steps, stepOk s by
    exact h ops [] (by simp)
  intro l
  induction l with
  | nil => intro steps h s hs; exact h s (by simpa using hs)
  | cons op rest ih =>
    intro steps h s hs
    simp only [List.foldl_cons] at hs
    exact ih (placeOp op steps) (placeOp_stepOk op steps h) s hs

theorem placeOp_ne_nil (op : Operation G Q) (steps : List (List (Operation G Q))) :
    placeOp op steps ≠ [] := by
  cases steps with
  | nil => simp [placeOp]
  | cons s rest =>
    by_cases h : conflictsWith op s = true <;> simp [placeOp, h]

theorem packOps_ne_nil (ops : List (Operation G Q)) (h : ops ≠ []) :
    packOps ops ≠ [] := by
  suffices haux : ∀ (l : List (Operation G Q)) (steps : List (List (Operation G Q))),
      steps ≠ [] → l.foldl (fun st op => placeOp op st) steps ≠ [] by
    cases ops with
    | nil => exact absurd rfl h
    | cons op rest =>
      have h2 : packOps (op :: rest) = rest.foldl (fun st op => placeOp op st) [[op]] := by
        simp [packOps, List.foldl_cons, placeOp]
      rw [h2]
      exact haux rest [[op]] (by simp)
  intro l
  induction l with
  | nil => intro steps h2; simpa using h2
  | cons op rest ih =>
    intro steps h2
    simp only [List.foldl_cons]
    exact ih (placeOp op steps) (placeOp_ne_nil op steps)

/-! ## Helper lemmas about the matching phase -/

theorem foldl_matchStep_acc_or_mem (sub : G → G → Bool) :
    ∀ (l : List (OpIdentifier G Q)) (acc : Option (OpIdentifier G Q)) (m : OpIdentifier G Q),
      l.foldl (matchStep sub) acc = some m → acc = some m ∨ m ∈ l := by
  intro l
  induction l with
  | nil => intro acc m h; exact Or.inl (by simpa using h)
  | cons q t ih =>
    intro acc m h
    simp only [List.foldl_cons] at h
    rcases ih (matchStep sub acc q) m h with hacc | hmem
    · cases acc with
      | none =>
        simp [matchStep] at hacc
        exact Or.inr (by simp [hacc])
      | some c =>
        by_cases hp : is_proper_subtype_of sub q c = true
        · simp [matchStep, hp] at hacc
          exact Or.inr (by simp [hacc])
        · simp [matchStep, hp] at hacc
          exact Or.inl (by simp [hacc])
    · exact Or.inr (by simp [hmem])

theorem selectMatch_mem (sub : G → G → Bool)
    (table : List (OpIdentifier G Q × Operation G Q)) (op : Operation G Q)
    (m : OpIdentifier G Q) (h : selectMatch sub table op = some m) :
    m ∈ candidate_ids sub table op := by
  rcases foldl_matchStep_acc_or_mem sub (candidate_ids sub table op) none m h with h2 | h2
  · simp at h2
  · exact h2

theorem candidate_ids_sub_keys (sub : G → G → Bool)
    (table : List (OpIdentifier G Q × Operation G Q)) (op : Operation G Q)
    (m : OpIdentifier G Q) (h : m ∈ candidate_ids sub table op) :
    m ∈ table.map Prod.fst := List.mem_of_mem_filter h

theorem lookupOp_isSome_of_mem (table : List (OpIdentifier G Q × Operation G Q))
    (m : OpIdentifier G Q) (h : m ∈ table.map Prod.fst) :
    (lookupOp table m).isSome = true := by
  induction table with
  | nil => simp at h
  | cons p t ih =>
    by_cases hp : p.1 = m
    · simp [lookupOp, List.find?_cons, hp]
    · have hd : (decide (p.1 = m)) = false := by simp [hp]
      have h2 : m ∈ t.map Prod.fst := by
        rw [List.map_cons] at h
        rcases List.mem_cons.mp h with h3 | h3
        · exact absurd h3.symm hp
        · exact h3
      simpa [lookupOp, List.find?_cons, hd] using ih h2

theorem selectMatch_lookup_isSome (sub : G → G → Bool)
    (table : List (OpIdentifier G Q × Operation G Q)) (op : Operation G Q)
    (m : OpIdentifier G Q) (h : selectMatch sub table op = some m) :
    (lookupOp table m).isSome = true :=
  lookupOp_isSome_of_mem table m
    (candidate_ids_sub_keys sub table op m (selectMatch_mem sub table op m h))

theorem collectNoiseOps_eq (sub : G → G → Bool)
    (table : List (OpIdentifier G Q × Operation G Q)) (cands : List (Operation G Q)) :
    collectNoiseOps sub table cands = some (selectNoiseOps sub table cands) := by
  induction cands with
  | nil => simp [collectNoiseOps, selectNoiseOps]
  | cons op rest ih =>
    cases hm : selectMatch sub table op with
    | none => simp [collectNoiseOps, selectNoiseOps, hm, ih]
    | some mid =>
      have hs := selectMatch_lookup_isSome sub table op mid hm
      cases hl : lookupOp table mid with
      | none => rw [hl] at hs; simp at hs
      | some nop =>
        simp [collectNoiseOps, selectNoiseOps, hm, hl, ih]

theorem foldl_matchStep_keep (sub : G → G → Bool) (m : OpIdentifier G Q) :
    ∀ (l : List (OpIdentifier G Q)), (∀ q ∈ l, is_proper_subtype_of sub q m = false) →
      l.foldl (matchStep sub) (some m) = some m := by
  intro l
  induction l with
  | nil => simp
  | cons q t ih =>
    intro h
    have hq : is_proper_subtype_of sub q m = false := h q (by simp)
    have hstep : matchStep sub (some m) q = some m := by
      simp [matchStep, hq]
    rw [List.foldl_cons, hstep]
    exact ih (fun p hp => h p (by simp [hp]))

/-! ## Helper lemmas about the specificity partial order -/

theorem proper_subtype_irrefl (sub : G → G → Bool) (a : OpIdentifier G Q) :
    is_proper_subtype_of sub a a = false := by
  simp [is_proper_subtype_of]

theorem proper_subtype_iff (sub : G → G → Bool) (a b : OpIdentifier G Q) :
    is_proper_subtype_of sub a b = true ↔
      ((subtypeOf sub a.gate_type b.gate_type = true ∧ a.gate_type ≠ b.gate_type) ∨
       ((a.gate_type = b.gate_type ∨
         (subtypeOf sub a.gate_type b.gate_type = false ∧
          subtypeOf sub b.gate_type a.gate_type = false)) ∧
        a.qubits.isSome = true ∧ b.qubits = none)) := by
  obtain ⟨ga, qa⟩ := a
  obtain ⟨gb, qb⟩ := b
  cases qa <;> cases qb <;>
    simp [is_proper_subtype_of, Bool.or_eq_true, Bool.and_eq_true, Bool.not_eq_true',
      decide_eq_true_eq, decide_eq_false_iff_not, Option.isSome, Option.isNone] <;>
    tauto

theorem proper_subtype_asymm (sub : G → G → Bool) (a b : OpIdentifier G Q)
    (hanti : subtypeOf sub a.gate_type b.gate_type = true →
      subtypeOf sub b.gate_type a.gate_type = true → a.gate_type = b.gate_type)
    (hab : is_proper_subtype_of sub a b = true) :
    is_proper_subtype_of sub b a = false := by
  by_contra hba
  rw [Bool.not_eq_false] at hba
  rw [proper_subtype_iff] at hab hba
  rcases hab with ⟨hsab, hneab⟩ | ⟨heqinc, hsome_a, hnone_b⟩
  · rcases hba with ⟨hsba, hneba⟩ | ⟨heqinc2, hsome_b, hnone_a⟩
    · exact hneab (hanti hsab hsba)
    · rcases heqinc2 with heq | ⟨hn1, hn2⟩
      · exact hneab heq.symm
      · rw [hn2] at hsab; exact Bool.false_ne_true hsab
  · rcases hba with ⟨hsba, hneba⟩ | ⟨heqinc2, hsome_b, hnone_a⟩
    · rcases heqinc with heq | ⟨hn1, hn2⟩
      · exact hneba heq.symm
      · rw [hn2] at hsba; exact Bool.false_ne_true hsba
    · rw [hnone_b] at hsome_b; simp at hsome_b

theorem proper_subtype_ne (sub : G → G → Bool) (a b : OpIdentifier G Q)
    (hab : is_proper_subtype_of sub a b = true) : a ≠ b := by
  intro heq
  subst heq
  rw [proper_subtype_irrefl] at hab
  exact Bool.false_ne_true hab

/-! ## Helper lemmas about Python dict reconstruction -/

theorem dictInsert_not_mem {K V : Type} [DecidableEq K] (l : List (K × V)) (kv : K × V)
    (h : kv.1 ∉ l.map Prod.fst) : dictInsert l kv = l ++ [kv] := by
  unfold dictInsert
  rw [if_neg]
  intro hany
  rcases List.any_eq_true.mp hany with ⟨p, hp, hd⟩
  exact h (List.mem_map.mpr ⟨p, hp, decide_eq_true_eq.mp hd⟩)

theorem pyDict_foldl {K V : Type} [DecidableEq K] :
    ∀ (l acc : List (K × V)), ((acc ++ l).map Prod.fst).Nodup →
      l.foldl dictInsert acc = acc ++ l := by
  intro l
  induction l with
  | nil => intro acc h; simp
  | cons kv t ih =>
    intro acc h
    have hshape : ((acc ++ kv :: t).map Prod.fst)
        = acc.map Prod.fst ++ kv.1 :: t.map Prod.fst := by simp
    rw [hshape] at h
    have hnm : kv.1 ∉ acc.map Prod.fst ++ t.map Prod.fst :=
      (List.nodup_cons.mp (List.nodup_middle.mp h)).1
    have hnacc : kv.1 ∉ acc.map Prod.fst := fun hmem =>
      hnm (List.mem_append.mpr (Or.inl hmem))
    rw [List.foldl_cons, dictInsert_not_mem acc kv hnacc]
    have h2 : (((acc ++ [kv]) ++ t).map Prod.fst).Nodup := by
      have h3 : (acc ++ [kv]) ++ t = acc ++ kv :: t := by simp
      rw [h3, hshape]
      exact h
    rw [ih (acc ++ [kv]) h2]
    simp

theorem pyDict_id {K V : Type} [DecidableEq K] (l : List (K × V))
    (h : (l.map Prod.fst).Nodup) : pyDict l = l := by
  have h2 := pyDict_foldl l [] (by simpa using h)
  simpa [pyDict] using h2

/-! ## The claims -/

/-- C1 (amended): `noisy_moment` packs the selected noise operations by
processing them in the order given, placing each operation into the
earliest-index existing new step whose current contents do not share a qubit
with it, and opening a new step only when no existing step can accept it;
every produced step is conflict-free. (The resulting step count is not in
general minimal among all conflict-free packings of the same operations;
see the counterexample.) -/
theorem claim_C1_greedy_stable_packing :
    (∀ (ops : List (Operation G Q)) (op : Operation G Q),
      packOps (ops ++ [op]) = placeOp op (packOps ops)) ∧
    (∀ (op : Operation G Q) (steps : List (List (Operation G Q))),
      (∃ pre s post, steps = pre ++ s :: post ∧ (∀ t ∈ pre, conflictsWith op t = true) ∧
        conflictsWith op s = false ∧ placeOp op steps = pre ++ (s ++ [op]) :: post) ∨
      ((∀ t ∈ steps, conflictsWith op t = true) ∧ placeOp op steps = steps ++ [[op]])) ∧
    (∀ (ops : List (Operation G Q)) (s : List (Operation G Q)),
      s ∈ packOps ops → stepOk s) :=
  ⟨packOps_append, placeOp_char, packOps_stepOk⟩

/-- C1 counterexample: on the crown input the greedy packing used by
`noisy_moment` produces three new steps, although the very same six noise
operations admit a two-step conflict-free partition — so the resulting
sequence of new steps is not the minimal sequence of conflict-free steps. -/
theorem claim_C1_counterexample :
    selectNoiseOps noSub crownModel.ops_added (candidate_ops crownModel crownMoment)
      = [cu1, cv1, cu2, cv2, cu3, cv3] ∧
    packOps [cu1, cv1, cu2, cv2, cu3, cv3] = [[cu1, cv1], [cu2, cv2], [cu3, cv3]] ∧
    (noisy_moment noSub crownModel crownMoment []).length = 4 ∧
    stepOk [cu1, cu2, cu3] ∧ stepOk [cv1, cv2, cv3] ∧
    ([cu1, cu2, cu3] ++ [cv1, cv2, cv3]).Perm [cu1, cv1, cu2, cv2, cu3, cv3] := by
  refine ⟨by decide, by decide, by decide, by decide, by decide, by decide⟩

/-- C2 (amended): when the rule table consists exactly of the two patterns A
and B, if both match the candidate operation and A is a proper subtype of B
(over a registry antisymmetric on their gate labels), then `noisy_moment`
emits A's bound replacement operation, regardless of the order in which A
and B are declared. -/
theorem claim_C2_specificity_determinism (sub : G → G → Bool) (A B : OpIdentifier G Q)
    (x y op : Operation G Q)
    (hanti : subtypeOf sub A.gate_type B.gate_type = true →
      subtypeOf sub B.gate_type A.gate_type = true → A.gate_type = B.gate_type)
    (hA : opIdContains sub A op = true) (hB : opIdContains sub B op = true)
    (hAB : is_proper_subtype_of sub A B = true) :
    noisy_moment sub ⟨[(A, x), (B, y)], false, false⟩ ⟨[op]⟩ [] = [⟨[op]⟩, ⟨[x]⟩] ∧
    noisy_moment sub ⟨[(B, y), (A, x)], false, false⟩ ⟨[op]⟩ [] = [⟨[op]⟩, ⟨[x]⟩] := by
  have hBA : is_proper_subtype_of sub B A = false := proper_subtype_asymm sub A B hanti hAB
  have hne : A ≠ B := proper_subtype_ne sub A B hAB
  have hne2 : ¬ (B = A) := fun h => hne h.symm
  constructor
  · have hids : candidate_ids sub [(A, x), (B, y)] op = [A, B] := by
      simp [candidate_ids, hA, hB]
    have hsel : selectMatch sub [(A, x), (B, y)] op = some A := by
      simp [selectMatch, hids, List.foldl_cons, matchStep, hBA]
    have hlook : lookupOp [(A, x), (B, y)] A = some x := by
      simp [lookupOp, List.find?_cons]
    simp [noisy_moment, candidate_ops, selectNoiseOps, hsel, hlook, emit, packOps, placeOp]
  · have hids : candidate_ids sub [(B, y), (A, x)] op = [B, A] := by
      simp [candidate_ids, hA, hB]
    have hsel : selectMatch sub [(B, y), (A, x)] op = some A := by
      simp [selectMatch, hids, List.foldl_cons, matchStep, hAB]
    have hlook : lookupOp [(B, y), (A, x)] A = some x := by
      simp [lookupOp, List.find?_cons, hne2]
    simp [noisy_moment, candidate_ops, selectNoiseOps, hsel, hlook, emit, packOps, placeOp]

/-- C2 witness: a concrete two-pattern table in both declaration orders,
with the proper subtype relation holding via the gate labels. -/
theorem claim_C2_witness :
    noisy_moment leSub ⟨[(c2A, c2x), (c2B, c2y)], false, false⟩ ⟨[c2op]⟩ []
      = [⟨[c2op]⟩, ⟨[c2x]⟩] ∧
    noisy_moment leSub ⟨[(c2B, c2y), (c2A, c2x)], false, false⟩ ⟨[c2op]⟩ []
      = [⟨[c2op]⟩, ⟨[c2x]⟩] :=
  claim_C2_specificity_determinism leSub c2A c2B c2x c2y c2op
    (by decide) (by decide) (by decide) (by decide)

/-- C2 counterexample: in a three-pattern table over a registry that is
transitive and antisymmetric on the labels used, patterns A and B both match
the operation and A is a proper subtype of B, yet `noisy_moment` emits B's
bound replacement: the incomparable pattern M is declared first, A does not
displace M (A carries no qubits), and B displaces M (B carries qubits) —
so the claim fails for general rule tables. -/
theorem claim_C2_counterexample :
    opIdContains c2sub c2cA c2cop = true ∧
    opIdContains c2sub c2cB c2cop = true ∧
    is_proper_subtype_of c2sub c2cA c2cB = true ∧
    noisy_moment c2sub c2cexModel ⟨[c2cop]⟩ [] = [⟨[c2cop]⟩, ⟨[c2zB]⟩] := by
  refine ⟨by decide, by decide, by decide, by decide⟩

/-- C3: when the matching candidate patterns for an operation are mutually
incomparable under the proper-subtype order, the pattern declared earliest
in the rule table wins; more generally the first-declared candidate remains
the winner as long as no later candidate is strictly more specific than
it. -/
theorem claim_C3_declaration_order_tiebreak (sub : G → G → Bool)
    (table : List (OpIdentifier G Q × Operation G Q)) (op : Operation G Q)
    (c : OpIdentifier G Q) (rest : List (OpIdentifier G Q))
    (hc : candidate_ids sub table op = c :: rest) :
    ((c :: rest).Pairwise (fun a b => is_proper_subtype_of sub a b = false ∧
        is_proper_subtype_of sub b a = false) →
      selectMatch sub table op = some c) ∧
    ((∀ q ∈ rest, is_proper_subtype_of sub q c = false) →
      selectMatch sub table op = some c) := by
  have core : (∀ q ∈ rest, is_proper_subtype_of sub q c = false) →
      selectMatch sub table op = some c := by
    intro h
    unfold selectMatch
    rw [hc, List.foldl_cons]
    have h0 : matchStep sub none c = some c := rfl
    rw [h0]
    exact foldl_matchStep_keep sub c rest h
  exact ⟨fun hpw => core (fun q hq => ((List.pairwise_cons.mp hpw).1 q hq).2), core⟩

/-- C3 witness: two mutually incomparable patterns matching the same
operation; the first-declared pattern is selected. -/
theorem claim_C3_witness : selectMatch c3sub c3table c3op = some c3A :=
  (claim_C3_declaration_order_tiebreak c3sub c3table c3op c3A [c3B]
    (by decide)).1 (by decide)

/-- C4 (amended): whenever the matching phase produces at least one noise
operation, `noisy_moment` inserts the packed noise operations as one or
more new time-steps placed immediately before or after the original step
(all new steps adjacent, on one side). -/
theorem claim_C4_adjacent_noise_steps (sub : G → G → Bool)
    (model : InsertionNoiseModel G Q) (moment : Moment G Q) (sq : List Q)
    (h : selectNoiseOps sub model.ops_added (candidate_ops model moment) ≠ []) :
    ∃ new_steps : List (Moment G Q), new_steps ≠ [] ∧
      (noisy_moment sub model moment sq = new_steps ++ [moment] ∨
       noisy_moment sub model moment sq = moment :: new_steps) := by
  refine ⟨(packOps (selectNoiseOps sub model.ops_added (candidate_ops model moment))).map
    Moment.mk, ?_, ?_⟩
  · intro hnil
    exact packOps_ne_nil _ h (by simpa using hnil)
  · have hie : (selectNoiseOps sub model.ops_added (candidate_ops model moment)).isEmpty
        = false := by
      rw [List.isEmpty_eq_false]
      exact h
    cases hp : model.prepend
    · exact Or.inr (by simp [noisy_moment, emit, hie, hp])
    · exact Or.inl (by simp [noisy_moment, emit, hie, hp])

/-- C4 witness: a single triggering moment, with the three packed noise
steps appearing together right after the original step. -/
theorem claim_C4_witness :
    selectNoiseOps noSub c4Model.ops_added (candidate_ops c4Model c4Moment) ≠ [] ∧
    ∃ new_steps : List (Moment Nat Nat), new_steps ≠ [] ∧
      (noisy_moment noSub c4Model c4Moment [] = new_steps ++ [c4Moment] ∨
       noisy_moment noSub c4Model c4Moment [] = c4Moment :: new_steps) :=
  ⟨by decide, claim_C4_adjacent_noise_steps noSub c4Model c4Moment [] (by decide)⟩

/-- C4 counterexample: three matched candidates all map to the same
replacement operation on one qubit, so the packing opens three new steps —
more than the two new steps the claim allows. -/
theorem claim_C4_counterexample :
    noisy_moment noSub c4Model c4Moment []
      = [c4Moment, ⟨[c4z]⟩, ⟨[c4z]⟩, ⟨[c4z]⟩] := by
  decide

/-- C5: whenever the matching phase produces a non-empty noise sequence,
`noisy_moment` returns the packed noise steps followed by the original step
when `prepend` is true, and the original step followed by the packed noise
steps when `prepend` is false; the original step appears in the output
unchanged. -/
theorem claim_C5_prepend_append_ordering (sub : G → G → Bool)
    (model : InsertionNoiseModel G Q) (moment : Moment G Q) (sq : List Q)
    (h : selectNoiseOps sub model.ops_added (candidate_ops model moment) ≠ []) :
    (model.prepend = true →
      noisy_moment sub model moment sq =
        (packOps (selectNoiseOps sub model.ops_added (candidate_ops model moment))).map
          Moment.mk ++ [moment]) ∧
    (model.prepend = false →
      noisy_moment sub model moment sq =
        moment :: (packOps (selectNoiseOps sub model.ops_added
          (candidate_ops model moment))).map Moment.mk) := by
  have hie : (selectNoiseOps sub model.ops_added (candidate_ops model moment)).isEmpty
      = false := by
    rw [List.isEmpty_eq_false]
    exact h
  constructor <;> intro hp <;> simp [noisy_moment, emit, hie, hp]

/-- C5 witness: a triggering single-rule model with `prepend` set puts its
noise step before the original moment. -/
theorem claim_C5_witness :
    selectNoiseOps noSub c5Model.ops_added (candidate_ops c5Model c5Moment) ≠ [] ∧
    (c5Model.prepend = true →
      noisy_moment noSub c5Model c5Moment [] =
        (packOps (selectNoiseOps noSub c5Model.ops_added
          (candidate_ops c5Model c5Moment))).map Moment.mk ++ [c5Moment]) :=
  ⟨by decide, (claim_C5_prepend_append_ordering noSub c5Model c5Moment [] (by decide)).1⟩

/-- C6: when the matching phase produces no noise operation — every
candidate operation (after the marker filter) has a `None` match — then
`noisy_moment` returns exactly the one-element sequence holding the original
step, creating no new step. -/
theorem claim_C6_no_match_passthrough (sub : G → G → Bool)
    (model : InsertionNoiseModel G Q) (moment : Moment G Q) (sq : List Q)
    (h : ∀ op ∈ candidate_ops model moment, selectMatch sub model.ops_added op = none) :
    noisy_moment sub model moment sq = [moment] := by
  have hnil : selectNoiseOps sub model.ops_added (candidate_ops model moment) = [] := by
    apply List.filterMap_eq_nil_iff.mpr
    intro op hop
    rw [h op hop]
    rfl
  unfold noisy_moment
  rw [hnil]
  rfl

/-- C6 witness: an empty rule table passes the original moment through. -/
theorem claim_C6_witness : noisy_moment noSub c6Model c6Moment [] = [c6Moment] :=
  claim_C6_no_match_passthrough noSub c6Model c6Moment [] (by decide)

/-- C7: every time-step produced by the packing phase of `noisy_moment`
satisfies the time-step invariant: the qubit supports of its operations are
pairwise disjoint. -/
theorem claim_C7_packing_conflict_free (sub : G → G → Bool)
    (model : InsertionNoiseModel G Q) (moment : Moment G Q) (s : List (Operation G Q))
    (h : s ∈ packOps (selectNoiseOps sub model.ops_added (candidate_ops model moment))) :
    stepOk s :=
  packOps_stepOk _ s h

/-- C7 witness: the packed step of a concrete triggering moment satisfies
the invariant. -/
theorem claim_C7_witness :
    [c7z] ∈ packOps (selectNoiseOps noSub c7Model.ops_added
      (candidate_ops c7Model c7Moment)) ∧ stepOk [c7z] :=
  ⟨by decide, claim_C7_packing_conflict_free noSub c7Model c7Moment [c7z] (by decide)⟩

/-- C8: exporting a configuration with `_json_dict_` and reimporting it with
`_from_json_dict_` yields the very same model — same rule table in the same
declaration order, same `prepend`, same `require_physical_tag` — hence a
model whose `noisy_moment` produces identical outputs on every input. The
hypothesis records that a Python dict cannot hold duplicate keys. -/
theorem claim_C8_json_roundtrip (sub : G → G → Bool) (model : InsertionNoiseModel G Q)
    (h : (model.ops_added.map Prod.fst).Nodup) (moment : Moment G Q) (sq : List Q) :
    from_json_dict (json_dict model) = model ∧
    noisy_moment sub (from_json_dict (json_dict model)) moment sq
      = noisy_moment sub model moment sq := by
  have h1 : from_json_dict (json_dict model) = model := by
    unfold from_json_dict json_dict
    rw [pyDict_id _ h]
  exact ⟨h1, by rw [h1]⟩

/-- C8 witness: a concrete two-rule configuration round-trips exactly. -/
theorem claim_C8_witness :
    from_json_dict (json_dict c8Model) = c8Model ∧
    noisy_moment noSub (from_json_dict (json_dict c8Model)) c8Moment []
      = noisy_moment noSub c8Model c8Moment [] :=
  claim_C8_json_roundtrip noSub c8Model (by decide) c8Moment []

/-- C9: for a fixed configuration and input time-step, `noisy_moment`
returns the same output for any two values of the `system_qubits` argument:
the all-qubits-in-scope parameter has no influence on the result. -/
theorem claim_C9_system_qubits_unused (sub : G → G → Bool)
    (model : InsertionNoiseModel G Q) (moment : Moment G Q) (sq1 sq2 : List Q) :
    noisy_moment sub model moment sq1 = noisy_moment sub model moment sq2 := rfl

/-- C10: the matching loop only ever leaves `match_id` holding a key drawn
from `ops_added`, so the dict lookup `ops_added[match_id]` always succeeds:
the run of `noisy_moment` with the fallible lookup made explicit never
fails, and agrees with the total embedding. -/
theorem claim_C10_lookup_total (sub : G → G → Bool) (model : InsertionNoiseModel G Q)
    (moment : Moment G Q) (sq : List Q) :
    noisy_momentE sub model moment sq = some (noisy_moment sub model moment sq) := by
  unfold noisy_momentE noisy_moment
  rw [collectNoiseOps_eq]
  rfl

end InsertionNoise
